/-
Verification of the pdfanon reversible-pseudonymization core.

The development shallowly embeds the Python sources:
  * `src/pdfanon/faker/mapping.py`   — the bidirectional `MappingStore`
  * `src/pdfanon/core/anonymizer.py` — the text substitution engine
Python dictionaries are modelled as insertion-ordered association lists
(`dictGet` finds the first matching key, `dictInsert` updates in place or
appends — exactly the observable behaviour of a `dict`).  The fake-value
generator (`DeterministicFakeGenerator.generate`) wraps the external Faker
library, so it enters the model as an opaque function argument, which is
precisely how `MappingStore.get_or_create_fake` consumes it.  Timestamps
(`datetime.now().isoformat()`) are threaded as explicit string parameters.
Text is modelled as `List Char` and `str.replace` as the leftmost,
non-overlapping scan `pyScan`/`pyReplace`.
-/
import Mathlib

/-! ## Python dictionaries as insertion-ordered association lists -/

/-- Lookup in a Python dict: first entry with the given key (keys are unique
under normal dict operations, so "first" is "the" entry). -/
def dictGet {α : Type} : List (String × α) → String → Option α
  | [], _ => none
  | (k', v) :: rest, k => if k' = k then some v else dictGet rest k

/-- Python `d[k] = v`: replace the value at an existing key in place,
otherwise append the new binding at the end (insertion order). -/
def dictInsert {α : Type} : List (String × α) → String → α → List (String × α)
  | [], k, v => [(k, v)]
  | (k', v') :: rest, k, v =>
    if k' = k then (k, v) :: rest else (k', v') :: dictInsert rest k v

/-! ## The mapping store (`src/pdfanon/faker/mapping.py`) -/

/-- Whitespace characters removed by Python's `str.strip()` (ASCII range;
`strip` also removes some further Unicode spaces, which no claim exercises). -/
def isPyWhitespace (c : Char) : Bool :=
  c = ' ' || c = '\t' || c = '\n' || c = '\r' || c = '\x0b' || c = '\x0c'

/-- `str.strip()` on the character list: drop leading and trailing whitespace. -/
def stripChars (l : List Char) : List Char :=
  ((l.dropWhile isPyWhitespace).reverse.dropWhile isPyWhitespace).reverse

/-- `original.strip()` — the canonical normalization of `get_or_create_fake`. -/
def pyStrip (s : String) : String := String.mk (stripChars s.data)

/-- `PIIMapping` dataclass: a single original↔fake association. -/
structure PIIMapping where
  original : String
  fake : String
  entity_type : String
  document : String
  timestamp : String
  deriving DecidableEq, Repr

/-- In-memory state of a `MappingStore`: the forward map `original_to_fake`
and the reverse index `fake_to_original`. -/
structure MappingStore where
  original_to_fake : List (String × PIIMapping)
  fake_to_original : List (String × String)
  deriving DecidableEq, Repr

/-- A store constructed from an absent (or corrupt) mapping file. -/
def emptyStore : MappingStore := { original_to_fake := [], fake_to_original := [] }

/-- `MappingStore.get_fake`: raw lookup by the given original (no
normalization of the argument), returning the stored fake value. -/
def getFake (s : MappingStore) (original : String) : Option String :=
  (dictGet s.original_to_fake original).map PIIMapping.fake

/-- `MappingStore.get_original`: raw lookup in the reverse index. -/
def getOriginal (s : MappingStore) (fake : String) : Option String :=
  dictGet s.fake_to_original fake

/-- The collision `while` loop of `get_or_create_fake` (mapping.py lines
122-132).  The Python loop runs `while fake in self.fake_to_original`,
incrementing `collision_count`, regenerating from the perturbed original
`f"{normalized}_{collision_count}"`, and breaking with the safety valve
`f"{original_fake}_{collision_count}"` once the count exceeds 100.  The loop
provably makes at most 101 iterations (the valve fires when the count
reaches 101), so it is rendered as structural recursion on a fuel argument
that is called with fuel 101 and never reaches the (dead) fuel-0 base case.
-/
def collideAux (rev : List (String × String)) (gen : String → String → String)
    (normalized etype origFake : String) : Nat → Nat → String → String
  | 0, _, fake => fake
  | fuel + 1, count, fake =>
    if (dictGet rev fake).isSome then
      let c := count + 1
      let f := gen (normalized ++ "_" ++ toString c) etype
      if c > 100 then origFake ++ "_" ++ toString c
      else collideAux rev gen normalized etype origFake fuel c f
    else fake

/-- The sequence of candidate fakes the collision loop tries: attempt 0 is
the initially generated fake, attempt `k+1` regenerates from the original
perturbed with the numeric suffix `_{k+1}`. -/
def candidateFake (gen : String → String → String) (normalized etype fake0 : String) :
    Nat → String
  | 0 => fake0
  | k + 1 => gen (normalized ++ "_" ++ toString (k + 1)) etype

/-- The creation path of `get_or_create_fake` (lines 119-145): generate a
candidate, resolve collisions, then insert the entry into both indices. -/
def createNewFake (s : MappingStore) (normalized etype : String)
    (gen : String → String → String) (document ts : String) : String × MappingStore :=
  let fake0 := gen normalized etype
  let fake := collideAux s.fake_to_original gen normalized etype fake0 101 0 fake0
  let m : PIIMapping :=
    { original := normalized, fake := fake, entity_type := etype
      document := document, timestamp := ts }
  (fake,
    { original_to_fake := dictInsert s.original_to_fake normalized m
      fake_to_original := dictInsert s.fake_to_original fake normalized })

/-- `MappingStore.get_or_create_fake` (lines 92-145): normalize by trimming,
return the existing fake if present, otherwise create.  Note the Python
`if existing:` truthiness test: an existing *empty* fake string is falsy and
sends the call down the creation path again. -/
def getOrCreateFake (s : MappingStore) (original etype : String)
    (gen : String → String → String) (document ts : String) : String × MappingStore :=
  let normalized := pyStrip original
  match getFake s normalized with
  | some existing =>
    if existing = "" then createNewFake s normalized etype gen document ts
    else (existing, s)
  | none => createNewFake s normalized etype gen document ts

/-- The fake value the creation path of `get_or_create_fake` would insert
for this original (the resolved output of the collision loop). -/
def newFakeOf (s : MappingStore) (orig etype : String) (gen : String → String → String) :
    String :=
  collideAux s.fake_to_original gen (pyStrip orig) etype (gen (pyStrip orig) etype)
    101 0 (gen (pyStrip orig) etype)

/-! ## Store invariants -/

/-- The reverse index is exactly the inverse of the forward map. -/
def StoreInv (s : MappingStore) : Prop :=
  ∀ o f, (∃ m, dictGet s.original_to_fake o = some m ∧ m.fake = f) ↔
    dictGet s.fake_to_original f = some o

/-- No stored entry has an empty fake value (an empty fake is falsy in
Python and would make `get_or_create_fake` regenerate). -/
def NoEmptyFake (s : MappingStore) : Prop :=
  ∀ o m, dictGet s.original_to_fake o = some m → m.fake ≠ ""

/-- Every forward entry is stored under its own `original` field (the code
always inserts `self.original_to_fake[normalized] = mapping` with
`mapping.original = normalized`). -/
def EntriesKeyed (s : MappingStore) : Prop :=
  ∀ p ∈ s.original_to_fake, p.2.original = p.1

/-- Well-formed store: unique keys in both indices, the reverse index is the
exact inverse of the forward map, no stored fake is empty, and entries are
keyed by their own original. -/
def StoreWF (s : MappingStore) : Prop :=
  (s.original_to_fake.map Prod.fst).Nodup ∧ (s.fake_to_original.map Prod.fst).Nodup ∧
    StoreInv s ∧ NoEmptyFake s ∧ EntriesKeyed s

/-- The collision loop for this call resolves to a fake that is absent from
the reverse index (no safety-valve collision) and non-empty. -/
def createsFreshFake (s : MappingStore) (orig etype : String)
    (gen : String → String → String) : Prop :=
  dictGet s.fake_to_original (newFakeOf s orig etype gen) = none ∧
    newFakeOf s orig etype gen ≠ ""

/-- `startswith` on character lists: is `old` an initial segment of the text? -/
def leadsWith : List Char → List Char → Bool
  | [], _ => true
  | _ :: _, [] => false
  | a :: as, b :: bs => a = b && leadsWith as bs

/-- Python `old in t` (substring containment). -/
def containsSub (p : List Char) : List Char → Bool
  | [] => p.isEmpty
  | c :: rest => leadsWith p (c :: rest) || containsSub p rest

/-! ## Persistence: JSON values, `_load`, `save`
(`mapping.py` lines 36-81).  `json.load` either raises `JSONDecodeError` or
yields a JSON value, so a file is abstracted as absent, unparseable, or a
parsed JSON value. -/

inductive Json where
  | jnull : Json
  | jbool : Bool → Json
  | jnum : Int → Json
  | jstr : String → Json
  | jarr : List Json → Json
  | jobj : List (String × Json) → Json

/-- Python exceptions that can escape or be absorbed by `_load`/`reverse_pdf`. -/
inductive PyErr where
  | valueError : PyErr
  | attributeError : PyErr
  | typeError : PyErr
  deriving DecidableEq, Repr

/-- The three observable states of the mapping file when `_load` runs. -/
inductive LoadInput where
  | absent : LoadInput
  | unparseable : LoadInput
  | parsed : Json → LoadInput

/-- Python `needle in lst` on a list: membership; a string compares equal
only to an equal string element. -/
def jsonHasStr (needle : String) : List Json → Bool
  | [] => false
  | .jstr s :: rest => s = needle || jsonHasStr needle rest
  | _ :: rest => jsonHasStr needle rest

/-- `PIIMapping(**mapping_data)`: the keyword-expansion succeeds exactly when
`mapping_data` is an object carrying precisely the five dataclass fields
(anything else raises `TypeError`).  The model additionally requires the
field values to be strings — the only shape this system ever writes; Python
itself would accept arbitrary values here. -/
def decodeEntry : Json → Except PyErr PIIMapping
  | .jobj f =>
    match dictGet f "original", dictGet f "fake", dictGet f "entity_type",
        dictGet f "document", dictGet f "timestamp" with
    | some (.jstr o), some (.jstr fk), some (.jstr e), some (.jstr d), some (.jstr t) =>
      if f.length = 5 then
        .ok { original := o, fake := fk, entity_type := e, document := d, timestamp := t }
      else .error .typeError
    | _, _, _, _, _ => .error .typeError
  | _ => .error .typeError

/-- The `"mappings" in data` branch of `_load`: rebuild both indices from
the entry list, entry by entry. -/
def loadMappingsList : List Json → List (String × PIIMapping) → List (String × String) →
    Except PyErr MappingStore
  | [], fwd, rev => .ok { original_to_fake := fwd, fake_to_original := rev }
  | j :: rest, fwd, rev =>
    match decodeEntry j with
    | .error e => .error e
    | .ok m => loadMappingsList rest (dictInsert fwd m.original m) (dictInsert rev m.fake m.original)

/-- The legacy branch of `_load`: upgrade each `original_to_pseudo` pair to
a full entry with `entity_type = "UNKNOWN"`, `document = "migrated"` and the
current timestamp.  (The model restricts legacy fake values to strings; see
`decodeEntry`.) -/
def loadLegacyPairs (now : String) : List (String × Json) → List (String × PIIMapping) →
    List (String × String) → Except PyErr MappingStore
  | [], fwd, rev => .ok { original_to_fake := fwd, fake_to_original := rev }
  | (o, .jstr f) :: rest, fwd, rev =>
    loadLegacyPairs now rest
      (dictInsert fwd o { original := o, fake := f, entity_type := "UNKNOWN"
                          document := "migrated", timestamp := now })
      (dictInsert rev f o)
  | (_, _) :: _, _, _ => .error .typeError

/-- Whether `"mappings" in s` (the Python substring test), via the text
engine's character-level containment scan `containsSub`. -/
def strHasSub (needle s : String) : Bool :=
  containsSub needle.data s.data

/-- `MappingStore._load` (lines 36-65) on the observed file state.  The
`try` block catches only `json.JSONDecodeError` and `KeyError`; a file that
parses to an unexpected shape raises `TypeError`/`AttributeError` out of the
constructor (`"mappings" in data` on a non-iterable raises `TypeError`;
`data.get` on a list or string raises `AttributeError`; indexing a list or
string with the key `"mappings"` raises `TypeError`). -/
def loadModel (input : LoadInput) (now : String) : Except PyErr MappingStore :=
  match input with
  | .absent => .ok emptyStore
  | .unparseable => .ok emptyStore
  | .parsed j =>
    match j with
    | .jobj fields =>
      match dictGet fields "mappings" with
      | some (.jarr entries) => loadMappingsList entries [] []
      | some _ => .error .typeError
      | none =>
        match dictGet fields "original_to_pseudo" with
        | none => loadLegacyPairs now [] [] []
        | some (.jobj pairs) => loadLegacyPairs now pairs [] []
        | some _ => .error .attributeError
    | .jarr items =>
      if jsonHasStr "mappings" items then .error .typeError else .error .attributeError
    | .jstr s =>
      if strHasSub "mappings" s then .error .typeError else .error .attributeError
    | _ => .error .typeError

/-- The in-memory payload `MappingStore.save` serializes (lines 71-78):
version tag, creation timestamp, full entry list, plus the two legacy flat
maps rebuilt by dict comprehensions over the entry values. -/
structure SaveData where
  version : String
  created : String
  mappings : List PIIMapping
  original_to_pseudo : List (String × String)
  pseudo_to_original : List (String × String)
  deriving DecidableEq, Repr

/-- The payload `save` writes for a given store state. -/
def saveData (s : MappingStore) (now : String) : SaveData :=
  { version := "2.0", created := now
    mappings := s.original_to_fake.map Prod.snd
    original_to_pseudo :=
      (s.original_to_fake.map Prod.snd).foldl (fun d m => dictInsert d m.original m.fake) []
    pseudo_to_original := s.fake_to_original }

/-- The JSON value `json.dump` renders for a save payload. -/
def encodeMapping (m : PIIMapping) : Json :=
  .jobj [("original", .jstr m.original), ("fake", .jstr m.fake),
         ("entity_type", .jstr m.entity_type), ("document", .jstr m.document),
         ("timestamp", .jstr m.timestamp)]

def encodeSave (d : SaveData) : Json :=
  .jobj [("version", .jstr d.version), ("created", .jstr d.created),
         ("mappings", .jarr (d.mappings.map encodeMapping)),
         ("original_to_pseudo", .jobj (d.original_to_pseudo.map fun p => (p.1, .jstr p.2))),
         ("pseudo_to_original", .jobj (d.pseudo_to_original.map fun p => (p.1, .jstr p.2)))]

/-- The file-system effects `save` performs, in order (lines 67-81): create
the parent directories, then `open(self.mapping_file, "w")` — which
truncates the target file in place — then write the serialized payload.
No temporary file and no atomic rename occur. -/
inductive FileEffect where
  | mkdirParents : String → FileEffect
  | openTruncate : String → FileEffect
  | writeAll : String → SaveData → FileEffect

def saveEffects (s : MappingStore) (path now : String) : List FileEffect :=
  [.mkdirParents path, .openTruncate path, .writeAll path (saveData s now)]

/-- How each effect changes the observable state of the mapping file: a
just-truncated file is empty, and empty content is not valid JSON. -/
def applyEffect (file : LoadInput) : FileEffect → LoadInput
  | .mkdirParents _ => file
  | .openTruncate _ => .unparseable
  | .writeAll _ d => .parsed (encodeSave d)

def runEffects (file : LoadInput) : List FileEffect → LoadInput
  | [] => file
  | e :: rest => runEffects (applyEffect file e) rest

/-! ## The text substitution engine (`src/pdfanon/core/anonymizer.py`) -/

/-- The scanning loop of Python `str.replace` for a non-empty pattern:
leftmost, non-overlapping; on a match emit the replacement and skip the
pattern length, otherwise emit one character and advance.  Each step
consumes at least one character, so length-many steps of fuel suffice (the
fuel-0 case is dead for the wrapper's fuel choice). -/
def pyScan (old new : List Char) : Nat → List Char → List Char
  | _, [] => []
  | 0, t => t
  | fuel + 1, c :: rest =>
    if leadsWith old (c :: rest) then new ++ pyScan old new fuel ((c :: rest).drop old.length)
    else c :: pyScan old new fuel rest

/-- Python `t.replace(old, new)`.  An empty pattern inserts the replacement
before every character and at the end, as Python does. -/
def pyReplace (t old new : List Char) : List Char :=
  if old.isEmpty then new ++ t.foldr (fun c acc => c :: (new ++ acc)) []
  else pyScan old new t.length t

/-- Stable insertion step for `sorted(keys, key=len, reverse=True)`: an
element moves before the first strictly shorter key, so equal lengths keep
their original order (Python's sort is stable). -/
def insertDescByLen (p : List Char × List Char) :
    List (List Char × List Char) → List (List Char × List Char)
  | [] => [p]
  | q :: rest => if q.1.length < p.1.length then p :: q :: rest else q :: insertDescByLen p rest

def sortDescByLen (l : List (List Char × List Char)) : List (List Char × List Char) :=
  l.foldr insertDescByLen []

/-- `Anonymizer._replace_text` (lines 96-102): sort the replacement pairs by
decreasing key length, then apply `str.replace` for each pair in turn. -/
def replaceText (text : List Char) (reps : List (List Char × List Char)) : List Char :=
  (sortDescByLen reps).foldl (fun res p => pyReplace res p.1 p.2) text

/-- One iteration of the reversal loop of `reverse_pdf` (lines 139-142):
replace the fake with its original if the fake occurs, counting each found
fake once. -/
def reverseStep (acc : List Char × Nat) (p : List Char × List Char) : List Char × Nat :=
  if containsSub p.1 acc.1 then (pyReplace acc.1 p.1 p.2, acc.2 + 1) else acc

/-- The full reversal fold of `reverse_pdf` over the reverse map's items. -/
def reverseReplace (text : List Char) (rev : List (List Char × List Char)) :
    List Char × Nat :=
  rev.foldl reverseStep (text, 0)

/-- `Anonymizer.reverse_pdf` (lines 104-150), text part: raise `ValueError`
when the store's reverse index is empty, otherwise rewrite every stored fake
back to its original. -/
def reversePdfModel (text : List Char) (rev : List (List Char × List Char)) :
    Except PyErr (List Char × Nat) :=
  if rev.isEmpty then .error .valueError else .ok (reverseReplace text rev)

/-- Relation between an original text and a partially rewritten text: the
rewritten text is the original with some (possibly zero) occurrences of
originals replaced by their fake values, where untouched characters carry no
fake's characters. -/
inductive Subst (pairs : List (List Char × List Char)) : List Char → List Char → Prop where
  | nil : Subst pairs [] []
  | plain (c : Char) {t u : List Char} (hc : ∀ p ∈ pairs, c ∉ p.2) (h : Subst pairs t u) :
      Subst pairs (c :: t) (c :: u)
  | block (o f : List Char) {t u : List Char} (hp : (o, f) ∈ pairs) (h : Subst pairs t u) :
      Subst pairs (o ++ t) (f ++ u)

/-- Remove the first occurrence of an element from a list (used to peel one
pair off the reverse map while the reversal fold is consumed). -/
def removeFirst {α : Type} [DecidableEq α] : List α → α → List α
  | [], _ => []
  | x :: rest, a => if x = a then rest else x :: removeFirst rest a

/-! ## Theorems: association-list basics -/

theorem dictGet_dictInsert {α : Type} (d : List (String × α)) (k k' : String) (v : α) :
    dictGet (dictInsert d k v) k' = if k = k' then some v else dictGet d k' := by
  induction d with
  | nil =>
    by_cases h : k = k' <;> simp [dictInsert, dictGet, h]
  | cons p rest ih =>
    obtain ⟨k₀, v₀⟩ := p
    by_cases h0 : k₀ = k
    · subst h0
      by_cases h : k₀ = k' <;> simp [dictInsert, dictGet, h]
    · by_cases h : k₀ = k'
      · subst h
        have h2 : k ≠ k₀ := fun hh => h0 hh.symm
        simp [dictInsert, dictGet, h0, h2]
      · simp [dictInsert, dictGet, h0, h, ih]

theorem dictGet_eq_none_iff {α : Type} (d : List (String × α)) (k : String) :
    dictGet d k = none ↔ k ∉ d.map Prod.fst := by
  induction d with
  | nil => simp [dictGet]
  | cons p rest ih =>
    obtain ⟨k₀, v₀⟩ := p
    by_cases h : k₀ = k
    · subst h
      simp [dictGet]
    · have h' : ¬k = k₀ := fun hh => h hh.symm
      simp [dictGet, h, h', ih]

theorem dictInsert_eq_append {α : Type} (d : List (String × α)) (k : String) (v : α)
    (h : k ∉ d.map Prod.fst) : dictInsert d k v = d ++ [(k, v)] := by
  induction d with
  | nil => simp [dictInsert]
  | cons p rest ih =>
    obtain ⟨k₀, v₀⟩ := p
    simp only [List.map_cons, List.mem_cons] at h
    push_neg at h
    have h' : ¬k₀ = k := fun hh => h.1 hh.symm
    simp [dictInsert, h', ih h.2]

theorem mem_keys_dictInsert {α : Type} (d : List (String × α)) (k x : String) (v : α) :
    x ∈ (dictInsert d k v).map Prod.fst ↔ x = k ∨ x ∈ d.map Prod.fst := by
  induction d with
  | nil => simp [dictInsert]
  | cons p rest ih =>
    obtain ⟨k₀, v₀⟩ := p
    by_cases h : k₀ = k
    · subst h
      simp [dictInsert]
    · simp only [dictInsert, if_neg h, List.map_cons, List.mem_cons, ih]
      tauto

theorem nodup_keys_dictInsert {α : Type} (d : List (String × α)) (k : String) (v : α)
    (h : (d.map Prod.fst).Nodup) : ((dictInsert d k v).map Prod.fst).Nodup := by
  induction d with
  | nil => simp [dictInsert]
  | cons p rest ih =>
    obtain ⟨k₀, v₀⟩ := p
    simp only [List.map_cons, List.nodup_cons] at h
    by_cases hk : k₀ = k
    · subst hk
      simpa [dictInsert] using h
    · simp only [dictInsert, if_neg hk, List.map_cons, List.nodup_cons]
      refine ⟨?_, ih h.2⟩
      rw [mem_keys_dictInsert]
      push_neg
      exact ⟨hk, h.1⟩

theorem dictGet_eq_some_iff_mem {α : Type} (d : List (String × α)) (k : String) (v : α)
    (h : (d.map Prod.fst).Nodup) : dictGet d k = some v ↔ (k, v) ∈ d := by
  induction d with
  | nil => simp [dictGet]
  | cons p rest ih =>
    obtain ⟨k₀, v₀⟩ := p
    simp only [List.map_cons, List.nodup_cons] at h
    by_cases hk : k₀ = k
    · subst hk
      constructor
      · intro h'
        have hv : v₀ = v := by simpa [dictGet] using h'
        subst hv
        exact List.mem_cons_self _ _
      · intro hm
        rcases List.mem_cons.mp hm with heq | hm'
        · have hv : v = v₀ := congrArg Prod.snd heq
          subst hv
          simp [dictGet]
        · exact absurd (List.mem_map_of_mem Prod.fst hm') h.1
    · constructor
      · intro h'
        have h'' : dictGet rest k = some v := by simpa [dictGet, hk] using h'
        exact List.mem_cons_of_mem _ ((ih h.2).mp h'')
      · intro hm
        rcases List.mem_cons.mp hm with heq | hm'
        · exact absurd (congrArg Prod.fst heq).symm hk
        · simpa [dictGet, hk] using (ih h.2).mpr hm'

theorem foldl_dictInsert_rebuild {α : Type} (l acc : List (String × α))
    (h : ((acc ++ l).map Prod.fst).Nodup) :
    l.foldl (fun d p => dictInsert d p.1 p.2) acc = acc ++ l := by
  induction l generalizing acc with
  | nil => simp
  | cons p rest ih =>
    obtain ⟨k, v⟩ := p
    have hk : k ∉ acc.map Prod.fst := by
      simp only [List.map_append, List.map_cons, List.nodup_append] at h
      intro hmem
      exact h.2.2 hmem (by simp)
    have step : dictInsert acc k v = acc ++ [(k, v)] := dictInsert_eq_append acc k v hk
    have hrec := ih (acc ++ [(k, v)]) (by simpa using h)
    simpa [step, List.append_assoc] using hrec

/-! ## Theorems: `get_or_create_fake` path equations -/

theorem getOrCreateFake_existing (s : MappingStore) (orig etype : String)
    (gen : String → String → String) (doc ts : String) (f : String)
    (hf : getFake s (pyStrip orig) = some f) (hne : f ≠ "") :
    getOrCreateFake s orig etype gen doc ts = (f, s) := by
  simp [getOrCreateFake, hf, hne]

theorem getOrCreateFake_create (s : MappingStore) (orig etype : String)
    (gen : String → String → String) (doc ts : String)
    (h : getFake s (pyStrip orig) = none) :
    getOrCreateFake s orig etype gen doc ts =
      (newFakeOf s orig etype gen,
       { original_to_fake := dictInsert s.original_to_fake (pyStrip orig)
           { original := pyStrip orig, fake := newFakeOf s orig etype gen
             entity_type := etype, document := doc, timestamp := ts }
         fake_to_original :=
           dictInsert s.fake_to_original (newFakeOf s orig etype gen) (pyStrip orig) }) := by
  simp [getOrCreateFake, h, createNewFake, newFakeOf]

theorem getOrCreateFake_create_of_empty (s : MappingStore) (orig etype : String)
    (gen : String → String → String) (doc ts : String)
    (h : getFake s (pyStrip orig) = some "") :
    getOrCreateFake s orig etype gen doc ts =
      (newFakeOf s orig etype gen,
       { original_to_fake := dictInsert s.original_to_fake (pyStrip orig)
           { original := pyStrip orig, fake := newFakeOf s orig etype gen
             entity_type := etype, document := doc, timestamp := ts }
         fake_to_original :=
           dictInsert s.fake_to_original (newFakeOf s orig etype gen) (pyStrip orig) }) := by
  simp [getOrCreateFake, h, createNewFake, newFakeOf]

/-- After any `get_or_create_fake` call, looking up the trimmed original
returns exactly the fake the call returned. -/
theorem getFake_after_getOrCreateFake (s : MappingStore) (orig etype : String)
    (gen : String → String → String) (doc ts : String) :
    getFake (getOrCreateFake s orig etype gen doc ts).2 (pyStrip orig) =
      some (getOrCreateFake s orig etype gen doc ts).1 := by
  cases hg : getFake s (pyStrip orig) with
  | none =>
    rw [getOrCreateFake_create s orig etype gen doc ts hg]
    simp [getFake, dictGet_dictInsert]
  | some f =>
    by_cases hf : f = ""
    · subst hf
      rw [getOrCreateFake_create_of_empty s orig etype gen doc ts hg]
      simp [getFake, dictGet_dictInsert]
    · rw [getOrCreateFake_existing s orig etype gen doc ts f hg hf]
      exact hg

/-! ## Theorems: store invariant preservation -/

theorem storeInv_insert (s : MappingStore) (norm nf etype doc ts : String)
    (hinv : StoreInv s) (hfwd : dictGet s.original_to_fake norm = none)
    (hrev : dictGet s.fake_to_original nf = none) :
    StoreInv
      { original_to_fake := dictInsert s.original_to_fake norm
          { original := norm, fake := nf, entity_type := etype, document := doc, timestamp := ts }
        fake_to_original := dictInsert s.fake_to_original nf norm } := by
  intro o f
  simp only [dictGet_dictInsert]
  by_cases ho : norm = o
  · subst ho
    by_cases hf2 : nf = f
    · subst hf2
      simp
    · simp only [if_pos rfl, if_neg hf2]
      constructor
      · rintro ⟨m, hm, hmf⟩
        injection hm with hm
        subst hm
        exact absurd hmf hf2
      · intro hr
        have := (hinv norm f).mpr hr
        obtain ⟨m, hm, -⟩ := this
        rw [hfwd] at hm
        cases hm
  · by_cases hf2 : nf = f
    · subst hf2
      simp only [if_neg ho, if_pos rfl]
      constructor
      · rintro ⟨m, hm, hmf⟩
        have := (hinv o nf).mp ⟨m, hm, hmf⟩
        rw [hrev] at this
        cases this
      · intro hr
        injection hr with hr
        exact absurd hr ho
    · simp only [if_neg ho, if_neg hf2]
      exact hinv o f

theorem fake_injective (s : MappingStore) (hinv : StoreInv s) (o1 o2 : String)
    (m1 m2 : PIIMapping) (h1 : dictGet s.original_to_fake o1 = some m1)
    (h2 : dictGet s.original_to_fake o2 = some m2) (hf : m1.fake = m2.fake) :
    o1 = o2 := by
  have r1 := (hinv o1 m1.fake).mp ⟨m1, h1, rfl⟩
  have r2 := (hinv o2 m1.fake).mp ⟨m2, h2, hf.symm⟩
  rw [r1] at r2
  injection r2

theorem storeWF_insert (s : MappingStore) (norm nf etype doc ts : String)
    (hwf : StoreWF s) (hfwd : dictGet s.original_to_fake norm = none)
    (hrev : dictGet s.fake_to_original nf = none) (hne : nf ≠ "") :
    StoreWF
      { original_to_fake := dictInsert s.original_to_fake norm
          { original := norm, fake := nf, entity_type := etype, document := doc, timestamp := ts }
        fake_to_original := dictInsert s.fake_to_original nf norm } := by
  obtain ⟨hnd1, hnd2, hinv, hnef, hkey⟩ := hwf
  refine ⟨nodup_keys_dictInsert _ _ _ hnd1, nodup_keys_dictInsert _ _ _ hnd2,
    storeInv_insert s norm nf etype doc ts hinv hfwd hrev, ?_, ?_⟩
  · intro o m hm
    rw [dictGet_dictInsert] at hm
    by_cases ho : norm = o
    · rw [if_pos ho] at hm
      injection hm with hm
      subst hm
      exact hne
    · rw [if_neg ho] at hm
      exact hnef o m hm
  · intro p hp
    have hfree : norm ∉ s.original_to_fake.map Prod.fst := (dictGet_eq_none_iff _ _).mp hfwd
    rw [dictInsert_eq_append _ _ _ hfree] at hp
    rcases List.mem_append.mp hp with hp | hp
    · exact hkey p hp
    · simp only [List.mem_singleton] at hp
      subst hp
      rfl

/-! ## Theorems: the collision loop -/

theorem collideAux_succ (rev : List (String × String)) (gen : String → String → String)
    (norm etype origFake : String) (fuel count : Nat) (fake : String) :
    collideAux rev gen norm etype origFake (fuel + 1) count fake =
      if (dictGet rev fake).isSome then
        (if count + 1 > 100 then origFake ++ "_" ++ toString (count + 1)
         else collideAux rev gen norm etype origFake fuel (count + 1)
           (gen (norm ++ "_" ++ toString (count + 1)) etype))
      else fake := rfl

theorem collideAux_spec (rev : List (String × String)) (gen : String → String → String)
    (norm etype f0 : String) :
    ∀ fuel count, count + fuel = 101 → count ≤ 100 →
    (∃ k, count ≤ k ∧ k ≤ 100 ∧
      (∀ j, count ≤ j → j < k →
        (dictGet rev (candidateFake gen norm etype f0 j)).isSome = true) ∧
      dictGet rev (candidateFake gen norm etype f0 k) = none ∧
      collideAux rev gen norm etype f0 fuel count (candidateFake gen norm etype f0 count) =
        candidateFake gen norm etype f0 k) ∨
    ((∀ j, count ≤ j → j ≤ 100 →
        (dictGet rev (candidateFake gen norm etype f0 j)).isSome = true) ∧
      collideAux rev gen norm etype f0 fuel count (candidateFake gen norm etype f0 count) =
        f0 ++ "_" ++ toString 101) := by
  intro fuel
  induction fuel with
  | zero =>
    intro count h1 h2
    omega
  | succ fuel ih =>
    intro count h1 h2
    by_cases hmem : (dictGet rev (candidateFake gen norm etype f0 count)).isSome = true
    · by_cases hc : count + 1 > 100
      · have hcount : count = 100 := by omega
        subst hcount
        right
        refine ⟨?_, ?_⟩
        · intro j hj1 hj2
          have hje : j = 100 := by omega
          rw [hje]
          exact hmem
        · rw [collideAux_succ, if_pos hmem, if_pos (by omega)]
      · have hc' : count + 1 ≤ 100 := by omega
        have hstep : collideAux rev gen norm etype f0 (fuel + 1) count
            (candidateFake gen norm etype f0 count) =
            collideAux rev gen norm etype f0 fuel (count + 1)
              (candidateFake gen norm etype f0 (count + 1)) := by
          rw [collideAux_succ, if_pos hmem, if_neg hc]
          rfl
        rw [hstep]
        rcases ih (count + 1) (by omega) hc' with ⟨k, hk1, hk2, hall, hnone, heq⟩ | ⟨hall, heq⟩
        · left
          refine ⟨k, by omega, hk2, ?_, hnone, heq⟩
          intro j hj1 hj2
          rcases Nat.eq_or_lt_of_le hj1 with hj | hj
          · rw [← hj]
            exact hmem
          · exact hall j (by omega) hj2
        · right
          refine ⟨?_, heq⟩
          intro j hj1 hj2
          rcases Nat.eq_or_lt_of_le hj1 with hj | hj
          · rw [← hj]
            exact hmem
          · exact hall j (by omega) hj2
    · left
      refine ⟨count, Nat.le_refl _, h2, ?_, ?_, ?_⟩
      · intro j hj1 hj2
        omega
      · exact Option.not_isSome_iff_eq_none.mp hmem
      · rw [collideAux_succ, if_neg hmem]

/-- Claim C4: on the creation path, `get_or_create_fake` either returns the
first candidate fake whose value is absent from the reverse index, reached
after at most 100 perturbed-regeneration attempts (candidate `j+1` is
generated from the original with the numeric suffix `_{j+1}` appended), or —
when every candidate up to attempt 100 collides — deterministically falls
back to the first candidate with the final attempt count `101` appended.
The loop is total (the model is a function), so a collision is never
surfaced to the caller as an error. -/
theorem claim4_collision_bounded (s : MappingStore) (orig etype doc ts : String)
    (gen : String → String → String) (h : getFake s (pyStrip orig) = none) :
    (∃ k, k ≤ 100 ∧
      (∀ j, j < k → (dictGet s.fake_to_original
        (candidateFake gen (pyStrip orig) etype (gen (pyStrip orig) etype) j)).isSome = true) ∧
      dictGet s.fake_to_original
        (candidateFake gen (pyStrip orig) etype (gen (pyStrip orig) etype) k) = none ∧
      (getOrCreateFake s orig etype gen doc ts).1 =
        candidateFake gen (pyStrip orig) etype (gen (pyStrip orig) etype) k) ∨
    ((∀ j, j ≤ 100 → (dictGet s.fake_to_original
        (candidateFake gen (pyStrip orig) etype (gen (pyStrip orig) etype) j)).isSome = true) ∧
      (getOrCreateFake s orig etype gen doc ts).1 =
        gen (pyStrip orig) etype ++ "_" ++ toString 101) := by
  rw [getOrCreateFake_create s orig etype gen doc ts h]
  have hspec := collideAux_spec s.fake_to_original gen (pyStrip orig) etype
    (gen (pyStrip orig) etype) 101 0 rfl (by omega)
  rcases hspec with ⟨k, -, hk2, hall, hnone, heq⟩ | ⟨hall, heq⟩
  · left
    exact ⟨k, hk2, fun j hj => hall j (Nat.zero_le j) hj, hnone, heq⟩
  · right
    exact ⟨fun j hj => hall j (Nat.zero_le j) hj, heq⟩

theorem claim4_collision_bounded_witness :
    (∃ k, k ≤ 100 ∧
      (∀ j, j < k → (dictGet emptyStore.fake_to_original
        (candidateFake (fun _ _ => "F") (pyStrip "a") "PERSON"
          ((fun _ _ => "F") (pyStrip "a") "PERSON") j)).isSome = true) ∧
      dictGet emptyStore.fake_to_original
        (candidateFake (fun _ _ => "F") (pyStrip "a") "PERSON"
          ((fun _ _ => "F") (pyStrip "a") "PERSON") k) = none ∧
      (getOrCreateFake emptyStore "a" "PERSON" (fun _ _ => "F") "d" "t").1 =
        candidateFake (fun _ _ => "F") (pyStrip "a") "PERSON"
          ((fun _ _ => "F") (pyStrip "a") "PERSON") k) ∨
    ((∀ j, j ≤ 100 → (dictGet emptyStore.fake_to_original
        (candidateFake (fun _ _ => "F") (pyStrip "a") "PERSON"
          ((fun _ _ => "F") (pyStrip "a") "PERSON") j)).isSome = true) ∧
      (getOrCreateFake emptyStore "a" "PERSON" (fun _ _ => "F") "d" "t").1 =
        (fun _ _ => "F") (pyStrip "a") "PERSON" ++ "_" ++ toString 101) :=
  claim4_collision_bounded emptyStore "a" "PERSON" "d" "t" (fun _ _ => "F") rfl

/-- Claim C3 (amended): repeated `get_or_create_fake` calls on the same
value against the same store return the identical fake and leave the store
unchanged — for any later category and generator — provided the fake of the
first call is non-empty.  (The Python `if existing:` truthiness test treats
an empty stored fake as absent and regenerates, which the counterexample
exhibits.) -/
theorem claim3_idempotent_amended (s : MappingStore) (orig etype etype2 doc doc2 ts ts2 : String)
    (gen gen2 : String → String → String)
    (h : (getOrCreateFake s orig etype gen doc ts).1 ≠ "") :
    getOrCreateFake (getOrCreateFake s orig etype gen doc ts).2 orig etype2 gen2 doc2 ts2 =
      getOrCreateFake s orig etype gen doc ts := by
  have hafter := getFake_after_getOrCreateFake s orig etype gen doc ts
  rw [getOrCreateFake_existing _ orig etype2 gen2 doc2 ts2 _ hafter h]

theorem claim3_idempotent_amended_witness :
    getOrCreateFake (getOrCreateFake emptyStore "a" "PERSON" (fun _ _ => "F") "d" "t").2
        "a" "PERSON" (fun _ _ => "F") "d" "t2" =
      getOrCreateFake emptyStore "a" "PERSON" (fun _ _ => "F") "d" "t" :=
  claim3_idempotent_amended emptyStore "a" "PERSON" "PERSON" "d" "d" "t" "t2"
    (fun _ _ => "F") (fun _ _ => "F") (by decide)

/-- Claim C3, counterexample: with a generator that returns the empty
string, the first call stores (and returns) the empty fake; the second call
finds it falsy, regenerates, collides with the stored empty fake for all 101
attempts and returns the safety-valve value `"_101"` — a different fake for
the same value and store. -/
theorem claim3_counterexample :
    (getOrCreateFake (getOrCreateFake emptyStore "a" "PERSON" (fun _ _ => "") "doc" "t1").2
        "a" "PERSON" (fun _ _ => "") "doc" "t2").1 ≠
      (getOrCreateFake emptyStore "a" "PERSON" (fun _ _ => "") "doc" "t1").1 := by decide

/-- Claim C9 (amended): `get_or_create_fake` inserts under the trimmed key,
so after any call, `get_fake` applied to the *trimmed* original returns the
stored fake.  The lookups themselves perform no normalization of their
argument (see the counterexample). -/
theorem claim9_lookup_amended (s : MappingStore) (orig etype : String)
    (gen : String → String → String) (doc ts : String) :
    getFake (getOrCreateFake s orig etype gen doc ts).2 (pyStrip orig) =
      some (getOrCreateFake s orig etype gen doc ts).1 :=
  getFake_after_getOrCreateFake s orig etype gen doc ts

/-- Claim C9, counterexample: after `get_or_create_fake(" v ")` stored the
entry under the trimmed key `"v"`, looking up the untrimmed `" v "` returns
`None` while looking up `"v"` returns the fake — `get_fake` does not trim
its argument, contradicting `lookup o = lookup (trim o)`. -/
theorem claim9_counterexample :
    getFake (getOrCreateFake emptyStore " v " "PERSON" (fun _ _ => "F") "d" "t").2 " v " =
        none ∧
      getFake (getOrCreateFake emptyStore " v " "PERSON" (fun _ _ => "F") "d" "t").2 "v" =
        some "F" := by decide

/-- Claim C2, counterexample: the claim quantifies over raw (untrimmed)
non-empty strings; `"a"` and `" a"` are distinct non-empty strings that
normalize to the same key, so both calls return the same fake. -/
theorem claim2_counterexample :
    ("a" : String) ≠ " a" ∧ ("a" : String) ≠ "" ∧ (" a" : String) ≠ "" ∧
    (getOrCreateFake emptyStore "a" "PERSON" (fun _ _ => "X") "d" "t1").1 =
      (getOrCreateFake (getOrCreateFake emptyStore "a" "PERSON" (fun _ _ => "X") "d" "t1").2
        " a" "PERSON" (fun _ _ => "X") "d" "t2").1 := by decide

/-! ## Theorems: save followed by reload preserves the store -/

theorem decodeEntry_encodeMapping (m : PIIMapping) : decodeEntry (encodeMapping m) = .ok m := rfl

theorem loadMappingsList_map_encode (entries : List PIIMapping)
    (fwd : List (String × PIIMapping)) (rev : List (String × String)) :
    loadMappingsList (entries.map encodeMapping) fwd rev =
      .ok { original_to_fake := entries.foldl (fun d m => dictInsert d m.original m) fwd
            fake_to_original := entries.foldl (fun d m => dictInsert d m.fake m.original) rev } := by
  induction entries generalizing fwd rev with
  | nil => rfl
  | cons m rest ih =>
    simp only [List.map_cons, loadMappingsList, decodeEntry_encodeMapping, List.foldl_cons]
    exact ih _ _

theorem foldl_insert_keyed (l : List (String × PIIMapping)) (acc : List (String × PIIMapping))
    (hkey : ∀ p ∈ l, p.2.original = p.1) :
    (l.map Prod.snd).foldl (fun d m => dictInsert d m.original m) acc =
      l.foldl (fun d p => dictInsert d p.1 p.2) acc := by
  induction l generalizing acc with
  | nil => rfl
  | cons p rest ih =>
    simp only [List.map_cons, List.foldl_cons]
    rw [hkey p (List.mem_cons_self _ _)]
    exact ih _ fun q hq => hkey q (List.mem_cons_of_mem _ hq)

theorem fakes_nodup (s : MappingStore) (hwf : StoreWF s) :
    (s.original_to_fake.map fun p => p.2.fake).Nodup := by
  obtain ⟨hnd1, -, hinv, -, -⟩ := hwf
  have hpairKeys : s.original_to_fake.Pairwise fun p q => p.1 ≠ q.1 :=
    (List.pairwise_map).mp hnd1
  have hpair : s.original_to_fake.Pairwise fun p q => p.2.fake ≠ q.2.fake := by
    refine hpairKeys.imp_of_mem ?_
    intro p q hp hq hne heq
    have hgp : dictGet s.original_to_fake p.1 = some p.2 :=
      (dictGet_eq_some_iff_mem _ _ _ hnd1).mpr (by simpa using hp)
    have hgq : dictGet s.original_to_fake q.1 = some q.2 :=
      (dictGet_eq_some_iff_mem _ _ _ hnd1).mpr (by simpa using hq)
    exact hne (fake_injective s hinv p.1 q.1 p.2 q.2 hgp hgq heq)
  exact (List.pairwise_map).mpr hpair

theorem rebuildRev_lookup (s : MappingStore) (hwf : StoreWF s) (f : String) :
    dictGet (s.original_to_fake.map fun p => (p.2.fake, p.2.original)) f =
      dictGet s.fake_to_original f := by
  obtain ⟨hnd1, hnd2, hinv, hnef, hkey⟩ := hwf
  have hndL : ((s.original_to_fake.map fun p => (p.2.fake, p.2.original)).map Prod.fst).Nodup := by
    rw [List.map_map]
    exact fakes_nodup s ⟨hnd1, hnd2, hinv, hnef, hkey⟩
  have hiff : ∀ o, dictGet (s.original_to_fake.map fun p => (p.2.fake, p.2.original)) f = some o ↔
      dictGet s.fake_to_original f = some o := by
    intro o
    rw [dictGet_eq_some_iff_mem _ _ _ hndL, ← hinv o f]
    constructor
    · intro hm
      obtain ⟨p, hp, hpe⟩ := List.mem_map.mp hm
      have h1 : p.2.fake = f := congrArg Prod.fst hpe
      have h2 : p.2.original = o := congrArg Prod.snd hpe
      have hko : p.1 = o := (hkey p hp) ▸ h2
      refine ⟨p.2, ?_, h1⟩
      rw [← hko]
      exact (dictGet_eq_some_iff_mem _ _ _ hnd1).mpr (by simpa using hp)
    · rintro ⟨m, hm, hmf⟩
      have hmem : (o, m) ∈ s.original_to_fake := (dictGet_eq_some_iff_mem _ _ _ hnd1).mp hm
      refine List.mem_map.mpr ⟨(o, m), hmem, ?_⟩
      have : m.original = o := hkey (o, m) hmem
      rw [hmf, this]
  cases hL : dictGet (s.original_to_fake.map fun p => (p.2.fake, p.2.original)) f with
  | some o => exact ((hiff o).mp hL).symm
  | none =>
    cases hR : dictGet s.fake_to_original f with
    | none => rfl
    | some o => exact absurd ((hiff o).mpr hR) (by simp [hL])

theorem loadModel_parsed_encodeSave (d : SaveData) (now2 : String) :
    loadModel (.parsed (encodeSave d)) now2 = loadMappingsList (d.mappings.map encodeMapping) [] [] := by
  simp [loadModel, encodeSave, dictGet]

theorem loadModel_saveData (s : MappingStore) (now now2 : String) (hwf : StoreWF s) :
    loadModel (.parsed (encodeSave (saveData s now))) now2 =
      .ok { original_to_fake := s.original_to_fake
            fake_to_original := s.original_to_fake.map fun p => (p.2.fake, p.2.original) } := by
  obtain ⟨hnd1, hnd2, hinv, hnef, hkey⟩ := hwf
  rw [loadModel_parsed_encodeSave, show (saveData s now).mappings = s.original_to_fake.map Prod.snd
    from rfl, loadMappingsList_map_encode]
  have hfwd : (s.original_to_fake.map Prod.snd).foldl (fun d m => dictInsert d m.original m) []
      = s.original_to_fake := by
    rw [foldl_insert_keyed _ _ hkey]
    exact foldl_dictInsert_rebuild s.original_to_fake [] (by simpa using hnd1)
  have hrev2 : (s.original_to_fake.map Prod.snd).foldl (fun d m => dictInsert d m.fake m.original) []
      = s.original_to_fake.map fun p => (p.2.fake, p.2.original) := by
    rw [List.foldl_map]
    have hr := foldl_dictInsert_rebuild (s.original_to_fake.map fun p => (p.2.fake, p.2.original))
      [] (by simpa using fakes_nodup s ⟨hnd1, hnd2, hinv, hnef, hkey⟩)
    rw [List.foldl_map] at hr
    simpa using hr
  rw [hfwd, hrev2]

theorem getFake_ne_some_empty (s : MappingStore) (hwf : StoreWF s) (t : String) :
    getFake s t ≠ some "" := by
  obtain ⟨-, -, -, hnef, -⟩ := hwf
  intro h
  cases hd : dictGet s.original_to_fake t with
  | none => rw [getFake, hd] at h; cases h
  | some m =>
    rw [getFake, hd] at h
    have : m.fake = "" := by injection h
    exact hnef t m hd this

theorem rev_of_getFake (s : MappingStore) (hinv : StoreInv s) (t f : String)
    (h : getFake s t = some f) : dictGet s.fake_to_original f = some t := by
  obtain ⟨m, hm, hmf⟩ : ∃ m, dictGet s.original_to_fake t = some m ∧ m.fake = f := by
    cases hd : dictGet s.original_to_fake t with
    | none => rw [getFake, hd] at h; cases h
    | some m =>
      rw [getFake, hd] at h
      exact ⟨m, rfl, by injection h⟩
  exact (hinv t f).mp ⟨m, hm, hmf⟩

theorem getOrCreateFake_wf (s : MappingStore) (orig etype : String)
    (gen : String → String → String) (doc ts : String) (hwf : StoreWF s)
    (hfresh : createsFreshFake s orig etype gen) :
    StoreWF (getOrCreateFake s orig etype gen doc ts).2 := by
  cases hg : getFake s (pyStrip orig) with
  | none =>
    rw [getOrCreateFake_create s orig etype gen doc ts hg]
    exact storeWF_insert s (pyStrip orig) (newFakeOf s orig etype gen) etype doc ts hwf
      (Option.map_eq_none'.mp hg) hfresh.1 hfresh.2
  | some f =>
    by_cases hf : f = ""
    · subst hf
      exact absurd hg (getFake_ne_some_empty s hwf (pyStrip orig))
    · rw [getOrCreateFake_existing s orig etype gen doc ts f hg hf]
      exact hwf

theorem emptyStore_wf : StoreWF emptyStore := by
  refine ⟨by simp [emptyStore], by simp [emptyStore], ?_, ?_, ?_⟩
  · intro o f
    simp [emptyStore, dictGet]
  · intro o m hm
    simp [emptyStore, dictGet] at hm
  · intro p hp
    simp [emptyStore] at hp

/-- Claim C2 (amended): starting from any well-formed store, two
`get_or_create_fake` calls on values with *distinct trimmed* normal forms
return distinct fakes — provided each call's collision loop resolves to a
fresh, non-empty fake (no safety-valve collision and no empty generator
output).  The store stays well-formed (the reverse index remains the exact
inverse of the forward map, at most one fake per trimmed original, no two
originals share a fake), and saving then reloading the store preserves every
forward and reverse lookup. -/
theorem claim2_bijection_amended (s : MappingStore)
    (v1 v2 etype1 etype2 doc1 doc2 ts1 ts2 now now2 : String)
    (gen1 gen2 : String → String → String) (f1 f2 : String) (s1 s2 : MappingStore)
    (hwf : StoreWF s)
    (hne : pyStrip v1 ≠ pyStrip v2)
    (h1 : getOrCreateFake s v1 etype1 gen1 doc1 ts1 = (f1, s1))
    (h2 : getOrCreateFake s1 v2 etype2 gen2 doc2 ts2 = (f2, s2))
    (hfresh1 : createsFreshFake s v1 etype1 gen1)
    (hfresh2 : createsFreshFake s1 v2 etype2 gen2) :
    f1 ≠ f2 ∧ StoreWF s2 ∧
      ∃ s3, loadModel (.parsed (encodeSave (saveData s2 now))) now2 = .ok s3 ∧
        (∀ o, getFake s3 o = getFake s2 o) ∧ (∀ f, getOriginal s3 f = getOriginal s2 f) := by
  have hwf1 : StoreWF s1 := by
    have := getOrCreateFake_wf s v1 etype1 gen1 doc1 ts1 hwf hfresh1
    rwa [h1] at this
  have hwf2 : StoreWF s2 := by
    have := getOrCreateFake_wf s1 v2 etype2 gen2 doc2 ts2 hwf1 hfresh2
    rwa [h2] at this
  have hrev1 : dictGet s1.fake_to_original f1 = some (pyStrip v1) := by
    have hafter := getFake_after_getOrCreateFake s v1 etype1 gen1 doc1 ts1
    rw [h1] at hafter
    exact rev_of_getFake s1 hwf1.2.2.1 (pyStrip v1) f1 hafter
  have hind : f1 ≠ f2 := by
    intro heq
    cases hg2 : getFake s1 (pyStrip v2) with
    | some fx =>
      have hfx : fx ≠ "" := by
        intro hfxe
        exact getFake_ne_some_empty s1 hwf1 (pyStrip v2) (hfxe ▸ hg2)
      have heq2 := getOrCreateFake_existing s1 v2 etype2 gen2 doc2 ts2 fx hg2 hfx
      rw [h2] at heq2
      have hf2x : f2 = fx := congrArg Prod.fst heq2
      have hs2x : s2 = s1 := congrArg Prod.snd heq2
      have hrev2 : dictGet s1.fake_to_original f2 = some (pyStrip v2) := by
        rw [hf2x]
        exact rev_of_getFake s1 hwf1.2.2.1 (pyStrip v2) fx (hg2)
      rw [← heq] at hrev2
      rw [hrev1] at hrev2
      injection hrev2 with hrev2
      exact hne hrev2
    | none =>
      have heq2 := getOrCreateFake_create s1 v2 etype2 gen2 doc2 ts2 hg2
      rw [h2] at heq2
      have hf2x : f2 = newFakeOf s1 v2 etype2 gen2 := congrArg Prod.fst heq2
      have : dictGet s1.fake_to_original f2 = none := by
        rw [hf2x]
        exact hfresh2.1
      rw [← heq, hrev1] at this
      cases this
  refine ⟨hind, hwf2, ?_⟩
  refine ⟨_, loadModel_saveData s2 now now2 hwf2, fun o => rfl, fun f => ?_⟩
  exact rebuildRev_lookup s2 hwf2 f

theorem claim2_bijection_amended_witness :
    (getOrCreateFake emptyStore "a" "PERSON" (fun v _ => "X" ++ v) "d" "t1").1 ≠
        (getOrCreateFake (getOrCreateFake emptyStore "a" "PERSON" (fun v _ => "X" ++ v) "d" "t1").2
          "b" "PERSON" (fun v _ => "X" ++ v) "d" "t2").1 ∧
      StoreWF (getOrCreateFake
          (getOrCreateFake emptyStore "a" "PERSON" (fun v _ => "X" ++ v) "d" "t1").2
          "b" "PERSON" (fun v _ => "X" ++ v) "d" "t2").2 ∧
      ∃ s3, loadModel (.parsed (encodeSave (saveData (getOrCreateFake
              (getOrCreateFake emptyStore "a" "PERSON" (fun v _ => "X" ++ v) "d" "t1").2
              "b" "PERSON" (fun v _ => "X" ++ v) "d" "t2").2 "now"))) "now2" = .ok s3 ∧
        (∀ o, getFake s3 o = getFake (getOrCreateFake
            (getOrCreateFake emptyStore "a" "PERSON" (fun v _ => "X" ++ v) "d" "t1").2
            "b" "PERSON" (fun v _ => "X" ++ v) "d" "t2").2 o) ∧
        (∀ f, getOriginal s3 f = getOriginal (getOrCreateFake
            (getOrCreateFake emptyStore "a" "PERSON" (fun v _ => "X" ++ v) "d" "t1").2
            "b" "PERSON" (fun v _ => "X" ++ v) "d" "t2").2 f) :=
  claim2_bijection_amended emptyStore "a" "b" "PERSON" "PERSON" "d" "d" "t1" "t2" "now" "now2"
    (fun v _ => "X" ++ v) (fun v _ => "X" ++ v) _ _ _ _ emptyStore_wf (by decide) rfl rfl
    ⟨by decide, by decide⟩ ⟨by decide, by decide⟩

/-! ## Theorems: `_load` recovery and the legacy schema -/

/-- Claim C6 (amended): an absent mapping file and a file whose contents
fail to JSON-parse both yield the empty store, never an error; but a file
whose contents *do* parse to an unexpected JSON shape (for example a JSON
array) escapes the `except (json.JSONDecodeError, KeyError)` handler and
raises an uncaught `AttributeError`/`TypeError` — malformed parseable
content is not always absorbed. -/
theorem claim6_load_recovery_amended (now : String) :
    loadModel .absent now = .ok emptyStore ∧
    loadModel .unparseable now = .ok emptyStore ∧
    loadModel (.parsed (.jarr [])) now = .error .attributeError :=
  ⟨rfl, rfl, rfl⟩

/-- Claim C6, counterexample: the file content `[]` (a valid JSON array)
parses, but `_load` then evaluates `data.get` on a list and raises an
uncaught `AttributeError` — it is propagated to the caller, not absorbed as
an empty store. -/
theorem claim6_counterexample :
    loadModel (.parsed (.jarr [])) "t" = .error .attributeError ∧
    ∀ s, loadModel (.parsed (.jarr [])) "t" ≠ .ok s := by
  refine ⟨rfl, ?_⟩
  intro s h
  rw [show loadModel (.parsed (.jarr [])) "t" = .error .attributeError from rfl] at h
  cases h

theorem loadLegacyPairs_map_jstr (now : String) (l : List (String × String))
    (fwd : List (String × PIIMapping)) (rev : List (String × String)) :
    loadLegacyPairs now (l.map fun p => (p.1, .jstr p.2)) fwd rev =
      .ok { original_to_fake := l.foldl (fun d p => dictInsert d p.1
              { original := p.1, fake := p.2, entity_type := "UNKNOWN"
                document := "migrated", timestamp := now }) fwd
            fake_to_original := l.foldl (fun d p => dictInsert d p.2 p.1) rev } := by
  induction l generalizing fwd rev with
  | nil => rfl
  | cons p rest ih =>
    simp only [List.map_cons, loadLegacyPairs, List.foldl_cons]
    exact ih _ _

/-- Claim C8 (amended): loading a file that carries only the two legacy flat
maps yields one entry per `original_to_pseudo` key with entity type
`"UNKNOWN"` (the code's literal, uppercase — not lowercase `"unknown"`) and
the sentinel source label `"migrated"`; a subsequent save emits the current
versioned schema (version tag `"2.0"`, full entry list) plus both legacy
flat maps, with all entries preserved. -/
theorem claim8_legacy_amended (l : List (String × String)) (now now2 : String)
    (hnk : (l.map Prod.fst).Nodup) (hnf : (l.map Prod.snd).Nodup) :
    ∃ s, loadModel (.parsed (.jobj
          [("original_to_pseudo", .jobj (l.map fun p => (p.1, .jstr p.2))),
           ("pseudo_to_original", .jobj (l.map fun p => (p.2, .jstr p.1)))])) now = .ok s ∧
      s.original_to_fake =
        l.map (fun p => (p.1, PIIMapping.mk p.1 p.2 "UNKNOWN" "migrated" now)) ∧
      s.fake_to_original = l.map (fun p => (p.2, p.1)) ∧
      (saveData s now2).version = "2.0" ∧
      (saveData s now2).mappings = l.map (fun p => PIIMapping.mk p.1 p.2 "UNKNOWN" "migrated" now) ∧
      (saveData s now2).original_to_pseudo = l ∧
      (saveData s now2).pseudo_to_original = l.map (fun p => (p.2, p.1)) := by
  have hload : loadModel (.parsed (.jobj
        [("original_to_pseudo", .jobj (l.map fun p => (p.1, .jstr p.2))),
         ("pseudo_to_original", .jobj (l.map fun p => (p.2, .jstr p.1)))])) now =
      loadLegacyPairs now (l.map fun p => (p.1, .jstr p.2)) [] [] := by
    simp [loadModel, dictGet]
  have hfwd : l.foldl (fun d p => dictInsert d p.1
        (PIIMapping.mk p.1 p.2 "UNKNOWN" "migrated" now)) [] =
      l.map (fun p => (p.1, PIIMapping.mk p.1 p.2 "UNKNOWN" "migrated" now)) := by
    have hr := foldl_dictInsert_rebuild
      (l.map fun p => (p.1, PIIMapping.mk p.1 p.2 "UNKNOWN" "migrated" now)) []
      (by simpa using hnk)
    rw [List.foldl_map] at hr
    simpa using hr
  have hrev : l.foldl (fun d p => dictInsert d p.2 p.1) [] =
      l.map (fun p => (p.2, p.1)) := by
    have hr := foldl_dictInsert_rebuild (l.map fun p => (p.2, p.1)) [] (by simpa using hnf)
    rw [List.foldl_map] at hr
    simpa using hr
  have hid : l.foldl (fun d p => dictInsert d p.1 p.2) [] = l := by
    simpa using foldl_dictInsert_rebuild l [] (by simpa using hnk)
  rw [hload, loadLegacyPairs_map_jstr]
  refine ⟨_, rfl, hfwd, hrev, rfl, ?_, ?_, hrev⟩
  · show (l.foldl (fun d p => dictInsert d p.1
        (PIIMapping.mk p.1 p.2 "UNKNOWN" "migrated" now)) []).map Prod.snd = _
    rw [hfwd, List.map_map]
    rfl
  · show ((l.foldl (fun d p => dictInsert d p.1
        (PIIMapping.mk p.1 p.2 "UNKNOWN" "migrated" now)) []).map Prod.snd).foldl
      (fun d m => dictInsert d m.original m.fake) [] = _
    rw [hfwd, List.map_map]
    have hcomp : ((l.map fun p => PIIMapping.mk p.1 p.2 "UNKNOWN" "migrated" now).foldl
        (fun d m => dictInsert d m.original m.fake) []) =
        l.foldl (fun d p => dictInsert d p.1 p.2) [] := by
      rw [List.foldl_map]
    calc (l.map (Prod.snd ∘ fun p =>
            (p.1, PIIMapping.mk p.1 p.2 "UNKNOWN" "migrated" now))).foldl
          (fun d m => dictInsert d m.original m.fake) []
        = (l.map fun p => PIIMapping.mk p.1 p.2 "UNKNOWN" "migrated" now).foldl
          (fun d m => dictInsert d m.original m.fake) [] := rfl
      _ = l.foldl (fun d p => dictInsert d p.1 p.2) [] := hcomp
      _ = l := hid

theorem claim8_legacy_amended_witness :
    ∃ s, loadModel (.parsed (.jobj
          [("original_to_pseudo", .jobj ([("a", "b")].map fun p => (p.1, .jstr p.2))),
           ("pseudo_to_original", .jobj ([("a", "b")].map fun p => (p.2, .jstr p.1)))]))
        "n1" = .ok s ∧
      s.original_to_fake =
        [("a", "b")].map (fun p => (p.1, PIIMapping.mk p.1 p.2 "UNKNOWN" "migrated" "n1")) ∧
      s.fake_to_original = [("a", "b")].map (fun p => (p.2, p.1)) ∧
      (saveData s "n2").version = "2.0" ∧
      (saveData s "n2").mappings =
        [("a", "b")].map (fun p => PIIMapping.mk p.1 p.2 "UNKNOWN" "migrated" "n1") ∧
      (saveData s "n2").original_to_pseudo = [("a", "b")] ∧
      (saveData s "n2").pseudo_to_original = [("a", "b")].map (fun p => (p.2, p.1)) :=
  claim8_legacy_amended [("a", "b")] "n1" "n2" (by decide) (by decide)

/-- Claim C8, counterexample: loading the legacy file
`{"original_to_pseudo": {"a": "b"}, "pseudo_to_original": {"b": "a"}}`
upgrades the entry with the literal entity type `"UNKNOWN"`, not the claimed
literal `"unknown"`. -/
theorem claim8_counterexample :
    loadModel (.parsed (.jobj
        [("original_to_pseudo", .jobj [("a", .jstr "b")]),
         ("pseudo_to_original", .jobj [("b", .jstr "a")])])) "now" =
      .ok (MappingStore.mk [("a", PIIMapping.mk "a" "b" "UNKNOWN" "migrated" "now")]
        [("b", "a")]) ∧
    ("UNKNOWN" : String) ≠ "unknown" :=
  ⟨rfl, by decide⟩

/-! ## Theorems: save is not atomic (claim C5) -/

theorem dictInsert_ne_nil {α : Type} (d : List (String × α)) (k : String) (v : α) :
    dictInsert d k v ≠ [] := by
  cases d with
  | nil => simp [dictInsert]
  | cons p rest =>
    obtain ⟨k₀, v₀⟩ := p
    by_cases h : k₀ = k <;> simp [dictInsert, h]

theorem foldl_insertEntry_ne_nil (entries : List PIIMapping)
    (acc : List (String × PIIMapping)) (h : acc ≠ [] ∨ entries ≠ []) :
    entries.foldl (fun d m => dictInsert d m.original m) acc ≠ [] := by
  induction entries generalizing acc with
  | nil =>
    rcases h with h | h
    · simpa using h
    · exact absurd rfl h
  | cons m rest ih =>
    simp only [List.foldl_cons]
    exact ih (dictInsert acc m.original m) (Or.inl (dictInsert_ne_nil acc m.original m))

/-- Claim C5: `save` opens the target mapping file itself in `"w"` mode
(truncating it in place) and then writes the payload — there is no temporary
file and no atomic rename.  Running only the first two effects of the save
trace (the state after an interruption between the truncating open and the
completed write) leaves the file empty, which is not valid JSON, and a
subsequent load silently yields the *empty* store; a completed save loads
back to a non-empty store whenever the saved store was non-empty.  So an
interrupted save is observed by a later `load()` as a smaller (empty) valid
store, contradicting the all-or-nothing requirement. -/
theorem claim5_save_interrupted (s : MappingStore) (path now now2 : String) (f0 : LoadInput)
    (hne : s.original_to_fake ≠ []) :
    loadModel (runEffects f0 ((saveEffects s path now).take 2)) now2 = .ok emptyStore ∧
    ∀ s3, loadModel (runEffects f0 (saveEffects s path now)) now2 = .ok s3 →
      s3.original_to_fake ≠ [] := by
  constructor
  · rfl
  · intro s3 h3
    rw [show runEffects f0 (saveEffects s path now) =
        .parsed (encodeSave (saveData s now)) from rfl] at h3
    rw [loadModel_parsed_encodeSave,
      show (saveData s now).mappings = s.original_to_fake.map Prod.snd from rfl,
      loadMappingsList_map_encode] at h3
    injection h3 with h3
    rw [← h3]
    show (s.original_to_fake.map Prod.snd).foldl (fun d m => dictInsert d m.original m) [] ≠ []
    refine foldl_insertEntry_ne_nil _ _ (Or.inr ?_)
    simpa using hne

theorem claim5_save_interrupted_witness :
    loadModel (runEffects LoadInput.absent ((saveEffects
        (MappingStore.mk [("a", PIIMapping.mk "a" "b" "PERSON" "d" "t")] [("b", "a")])
        "m.json" "now").take 2)) "now2" = .ok emptyStore ∧
    ∀ s3, loadModel (runEffects LoadInput.absent (saveEffects
        (MappingStore.mk [("a", PIIMapping.mk "a" "b" "PERSON" "d" "t")] [("b", "a")])
        "m.json" "now")) "now2" = .ok s3 →
      s3.original_to_fake ≠ [] :=
  claim5_save_interrupted
    (MappingStore.mk [("a", PIIMapping.mk "a" "b" "PERSON" "d" "t")] [("b", "a")])
    "m.json" "now" "now2" LoadInput.absent (by decide)

/-! ## Theorems: reversal guard (claim C7) -/

/-- Claim C7: `reverse_pdf` raises the explicit "no mappings" `ValueError`
exactly when the store's reverse index is empty — it never silently returns
the input text in that case — and with a non-empty reverse index it
proceeds normally and does not raise that condition. -/
theorem claim7_reverse_empty_guard (text : List Char) (rev : List (List Char × List Char)) :
    ((∃ r, reversePdfModel text rev = .ok r) ↔ rev ≠ []) ∧
    (rev = [] → reversePdfModel text rev = .error .valueError) := by
  cases rev with
  | nil =>
    refine ⟨?_, fun _ => rfl⟩
    constructor
    · rintro ⟨r, hr⟩
      rw [show reversePdfModel text [] = .error .valueError from rfl] at hr
      cases hr
    · intro h
      exact absurd rfl h
  | cons p rest =>
    refine ⟨⟨fun _ => by simp, fun _ => ⟨reverseReplace text (p :: rest), rfl⟩⟩, fun h => by cases h⟩

theorem claim7_reverse_empty_guard_witness :
    ((∃ r, reversePdfModel [' '] ([] : List (List Char × List Char)) = .ok r) ↔
      ([] : List (List Char × List Char)) ≠ []) ∧
    (([] : List (List Char × List Char)) = [] →
      reversePdfModel [' '] ([] : List (List Char × List Char)) = .error .valueError) :=
  claim7_reverse_empty_guard [' '] []

/-! ## Theorems: `str.replace` scan equations -/

theorem leadsWith_eq_append : ∀ (old t : List Char), leadsWith old t = true →
    t = old ++ t.drop old.length := by
  intro old
  induction old with
  | nil => intro t _; simp
  | cons a as ih =>
    intro t h
    cases t with
    | nil => simp [leadsWith] at h
    | cons b bs =>
      simp only [leadsWith, Bool.and_eq_true, decide_eq_true_eq] at h
      obtain ⟨rfl, h2⟩ := h
      have := ih bs h2
      simp only [List.length_cons, List.drop_succ_cons, List.cons_append]
      exact congrArg _ this

theorem leadsWith_append_self : ∀ (old t : List Char), leadsWith old (old ++ t) = true := by
  intro old
  induction old with
  | nil => intro t; rfl
  | cons a as ih => intro t; simp [leadsWith, ih]

theorem leadsWith_ne_of_head (old : List Char) (c : Char) (rest : List Char)
    (h : c ∉ old) (hne : old ≠ []) : leadsWith old (c :: rest) = false := by
  cases old with
  | nil => exact absurd rfl hne
  | cons a as =>
    have ha : a ≠ c := fun hh => h (hh ▸ List.mem_cons_self a as)
    simp [leadsWith, ha]

theorem pyScan_fuel_irrel (old new : List Char) (hne : old ≠ []) :
    ∀ f₁ f₂ t, t.length ≤ f₁ → t.length ≤ f₂ →
      pyScan old new f₁ t = pyScan old new f₂ t := by
  intro f₁
  induction f₁ with
  | zero =>
    intro f₂ t h1 h2
    have : t = [] := List.length_eq_zero.mp (Nat.le_zero.mp h1)
    subst this
    cases f₂ <;> rfl
  | succ f₁ ih =>
    intro f₂ t h1 h2
    cases t with
    | nil => cases f₂ <;> rfl
    | cons c rest =>
      cases f₂ with
      | zero => simp at h2
      | succ f₂ =>
        simp only [pyScan]
        cases hlw : leadsWith old (c :: rest) with
        | false =>
          simp only [Bool.false_eq_true, if_false]
          have hr : rest.length ≤ f₁ := by simpa using h1
          have hr2 : rest.length ≤ f₂ := by simpa using h2
          rw [ih f₂ rest hr hr2]
        | true =>
          simp only [if_true]
          have hlen : old.length ≤ (c :: rest).length := by
            have := leadsWith_eq_append old (c :: rest) hlw
            have := congrArg List.length this
            simp only [List.length_append, List.length_drop] at this
            omega
          have holen : 1 ≤ old.length := by
            cases old with
            | nil => exact absurd rfl hne
            | cons _ _ => simp
          have hd1 : ((c :: rest).drop old.length).length ≤ f₁ := by
            simp only [List.length_drop, List.length_cons]
            simp only [List.length_cons] at h1
            omega
          have hd2 : ((c :: rest).drop old.length).length ≤ f₂ := by
            simp only [List.length_drop, List.length_cons]
            simp only [List.length_cons] at h2
            omega
          rw [ih f₂ _ hd1 hd2]

theorem pyReplace_nil (old new : List Char) (hne : old ≠ []) :
    pyReplace [] old new = [] := by
  cases old with
  | nil => exact absurd rfl hne
  | cons a as => rfl

theorem pyReplace_match (t old new : List Char) (hne : old ≠ [])
    (h : leadsWith old t = true) :
    pyReplace t old new = new ++ pyReplace (t.drop old.length) old new := by
  cases t with
  | nil =>
    cases old with
    | nil => exact absurd rfl hne
    | cons a as => simp [leadsWith] at h
  | cons c rest =>
    have hoemp : old.isEmpty = false := by
      cases old with
      | nil => exact absurd rfl hne
      | cons _ _ => rfl
    simp only [pyReplace, hoemp, Bool.false_eq_true, if_false]
    show pyScan old new (rest.length + 1) (c :: rest) = _
    rw [show pyScan old new (rest.length + 1) (c :: rest) =
      if leadsWith old (c :: rest) then
        new ++ pyScan old new rest.length ((c :: rest).drop old.length)
      else c :: pyScan old new rest.length rest from rfl]
    rw [if_pos h]
    congr 1
    have holen : 1 ≤ old.length := by
      cases old with
      | nil => exact absurd rfl hne
      | cons _ _ => simp
    exact pyScan_fuel_irrel old new hne rest.length ((c :: rest).drop old.length).length _
      (by simp; omega) (le_refl _)

theorem pyReplace_nomatch (c : Char) (rest old new : List Char) (hne : old ≠ [])
    (h : leadsWith old (c :: rest) = false) :
    pyReplace (c :: rest) old new = c :: pyReplace rest old new := by
  have hoemp : old.isEmpty = false := by
    cases old with
    | nil => exact absurd rfl hne
    | cons _ _ => rfl
  simp only [pyReplace, hoemp, Bool.false_eq_true, if_false]
  show pyScan old new (rest.length + 1) (c :: rest) = c :: pyScan old new rest.length rest
  rw [show pyScan old new (rest.length + 1) (c :: rest) =
    if leadsWith old (c :: rest) then
      new ++ pyScan old new rest.length ((c :: rest).drop old.length)
    else c :: pyScan old new rest.length rest from rfl]
  rw [if_neg (by simp [h])]

theorem pyReplace_match_self (t old new : List Char) (hne : old ≠ []) :
    pyReplace (old ++ t) old new = new ++ pyReplace t old new := by
  rw [pyReplace_match (old ++ t) old new hne (leadsWith_append_self old t), List.drop_left]

theorem pyReplace_skip (x t old new : List Char) (hne : old ≠ [])
    (hx : ∀ c ∈ x, c ∉ old) :
    pyReplace (x ++ t) old new = x ++ pyReplace t old new := by
  induction x with
  | nil => simp
  | cons c x' ih =>
    have hlw : leadsWith old (c :: (x' ++ t)) = false :=
      leadsWith_ne_of_head old c _ (hx c (List.mem_cons_self _ _)) hne
    rw [List.cons_append, pyReplace_nomatch c (x' ++ t) old new hne hlw,
      ih fun d hd => hx d (List.mem_cons_of_mem _ hd)]
    simp

theorem pyReplace_no_occurrence (p new : List Char) :
    ∀ t, containsSub p t = false → pyReplace t p new = t := by
  intro t
  induction t with
  | nil =>
    intro h
    have hne : p ≠ [] := by
      intro hp
      subst hp
      simp [containsSub, List.isEmpty] at h
    exact pyReplace_nil p new hne
  | cons c rest ih =>
    intro h
    have hne : p ≠ [] := by
      intro hp
      subst hp
      simp [containsSub, leadsWith] at h
    have hsplit : leadsWith p (c :: rest) = false ∧ containsSub p rest = false := by
      rw [show containsSub p (c :: rest) =
        (leadsWith p (c :: rest) || containsSub p rest) from rfl] at h
      exact Bool.or_eq_false_iff.mp h
    rw [pyReplace_nomatch c rest p new hne hsplit.1, ih hsplit.2]

/-! ## Theorems: the substitution relation -/

theorem Subst_append_plain (pairs : List (List Char × List Char)) (x t u : List Char)
    (hx : ∀ c ∈ x, ∀ p ∈ pairs, c ∉ p.2) (h : Subst pairs t u) :
    Subst pairs (x ++ t) (x ++ u) := by
  induction x with
  | nil => simpa using h
  | cons c x' ih =>
    simp only [List.cons_append]
    exact Subst.plain c (hx c (List.mem_cons_self _ _))
      (ih fun d hd p hp => hx d (List.mem_cons_of_mem _ hd) p hp)

theorem Subst_refl (pairs : List (List Char × List Char)) (t : List Char)
    (ht : ∀ c ∈ t, ∀ p ∈ pairs, c ∉ p.2) : Subst pairs t t := by
  have h := Subst_append_plain pairs t [] [] ht Subst.nil
  simpa using h

theorem Subst_nil_pairs (t u : List Char) (h : Subst [] t u) : t = u := by
  induction h with
  | nil => rfl
  | plain c hc h0 ih => rw [ih]
  | block o f hp h0 ih => exact absurd hp (List.not_mem_nil _)

theorem Subst_split_gen (pairs : List (List Char × List Char))
    (hfk : ∀ p ∈ pairs, p.2 ≠ []) {t v : List Char} (h : Subst pairs t v) :
    ∀ x u, v = x ++ u → (∀ c ∈ x, ∀ p ∈ pairs, c ∉ p.2) →
      ∃ t', t = x ++ t' ∧ Subst pairs t' u := by
  induction h with
  | nil =>
    intro x u hv hx
    have hx0 : x = [] := (List.append_eq_nil.mp hv.symm).1
    have hu0 : u = [] := (List.append_eq_nil.mp hv.symm).2
    subst hx0
    subst hu0
    exact ⟨[], rfl, Subst.nil⟩
  | @plain c t₀ u₀ hcp h0 ih =>
    intro x u hv hx
    cases x with
    | nil =>
      refine ⟨c :: t₀, rfl, ?_⟩
      rw [List.nil_append] at hv
      rw [← hv]
      exact Subst.plain c hcp h0
    | cons d x' =>
      rw [List.cons_append] at hv
      injection hv with h1 h2
      subst h1
      obtain ⟨t', ht', hs⟩ := ih x' u h2 fun e he => hx e (List.mem_cons_of_mem _ he)
      exact ⟨t', by rw [ht', List.cons_append], hs⟩
  | @block o f t₀ u₀ hp h0 ih =>
    intro x u hv hx
    cases x with
    | nil =>
      refine ⟨o ++ t₀, rfl, ?_⟩
      rw [List.nil_append] at hv
      rw [← hv]
      exact Subst.block o f hp h0
    | cons d x' =>
      exfalso
      cases hf : f with
      | nil =>
        exact (hfk (o, f) hp) hf
      | cons fc f'' =>
        rw [hf, List.cons_append] at hv
        injection hv with h1 h2
        have hd : d ∈ f := by
          rw [hf, ← h1]
          exact List.mem_cons_self _ _
        exact hx d (List.mem_cons_self _ _) (o, f) hp hd

theorem Subst_split (pairs : List (List Char × List Char))
    (hfk : ∀ p ∈ pairs, p.2 ≠ []) (x t u : List Char)
    (hx : ∀ c ∈ x, ∀ p ∈ pairs, c ∉ p.2) (h : Subst pairs t (x ++ u)) :
    ∃ t', t = x ++ t' ∧ Subst pairs t' u :=
  Subst_split_gen pairs hfk h x u rfl hx

theorem Subst_target_nil (pairs : List (List Char × List Char))
    (hfk : ∀ p ∈ pairs, p.2 ≠ []) {t u : List Char} (h : Subst pairs t u) (hu : u = []) :
    t = [] := by
  induction h with
  | nil => rfl
  | plain c hc h0 ih => exact absurd hu (List.cons_ne_nil _ _)
  | block o f hp h0 ih =>
    exact absurd (List.append_eq_nil.mp hu).1 (hfk _ hp)

theorem removeFirst_subset {α : Type} [DecidableEq α] (l : List α) (a : α) :
    ∀ b ∈ removeFirst l a, b ∈ l := by
  induction l with
  | nil => intro b hb; simp [removeFirst] at hb
  | cons x rest ih =>
    intro b hb
    by_cases h : x = a
    · simp only [removeFirst, if_pos h] at hb
      exact List.mem_cons_of_mem _ hb
    · simp only [removeFirst, if_neg h, List.mem_cons] at hb
      rcases hb with rfl | hb
      · exact List.mem_cons_self _ _
      · exact List.mem_cons_of_mem _ (ih b hb)

theorem mem_removeFirst_of_ne {α : Type} [DecidableEq α] (l : List α) (a b : α)
    (hne : b ≠ a) : b ∈ removeFirst l a ↔ b ∈ l := by
  induction l with
  | nil => simp [removeFirst]
  | cons x rest ih =>
    by_cases h : x = a
    · subst h
      simp only [removeFirst, if_pos rfl, List.mem_cons]
      constructor
      · exact Or.inr
      · rintro (rfl | hb)
        · exact absurd rfl hne
        · exact hb
    · simp only [removeFirst, if_neg h, List.mem_cons, ih]

theorem perm_cons_removeFirst {α : Type} [DecidableEq α] (a : α) (l : List α)
    (h : a ∈ l) : l.Perm (a :: removeFirst l a) := by
  induction l with
  | nil => cases h
  | cons x rest ih =>
    by_cases hx : x = a
    · subst hx
      rw [show removeFirst (x :: rest) x = rest from by simp [removeFirst]]
    · have ha : a ∈ rest := by
        rcases List.mem_cons.mp h with rfl | hh
        · exact absurd rfl hx
        · exact hh
      rw [show removeFirst (x :: rest) a = x :: removeFirst rest a from by
        simp [removeFirst, hx]]
      exact (List.Perm.cons x (ih ha)).trans (List.Perm.swap a x (removeFirst rest a))

theorem map_removeFirst {α β : Type} [DecidableEq α] [DecidableEq β] (f : α → β)
    (hinj : Function.Injective f) (l : List α) (a : α) :
    (removeFirst l a).map f = removeFirst (l.map f) (f a) := by
  induction l with
  | nil => simp [removeFirst]
  | cons x rest ih =>
    by_cases h : x = a
    · subst h
      simp [removeFirst]
    · have hf : f x ≠ f a := fun hh => h (hinj hh)
      simp [removeFirst, h, hf, ih]

theorem Subst_apply_step (pairs : List (List Char × List Char)) (o₀ f₀ : List Char)
    (hmem : (o₀, f₀) ∈ pairs)
    (ho : ∀ p ∈ pairs, p.1 ≠ []) (hfk : ∀ p ∈ pairs, p.2 ≠ [])
    (hdisj : ∀ p ∈ pairs, ∀ c ∈ p.2, ∀ q ∈ pairs, c ∉ q.1) :
    ∀ n t u, u.length ≤ n → Subst pairs t u → Subst pairs t (pyReplace u o₀ f₀) := by
  have ho₀ : o₀ ≠ [] := ho (o₀, f₀) hmem
  have holen : 1 ≤ o₀.length := by
    cases o₀ with
    | nil => exact absurd rfl ho₀
    | cons _ _ => simp
  intro n
  induction n with
  | zero =>
    intro t u hlen h
    have hu : u = [] := List.length_eq_zero.mp (Nat.le_zero.mp hlen)
    subst hu
    rw [pyReplace_nil _ _ ho₀]
    exact h
  | succ n ih =>
    intro t u hlen h
    cases h with
    | nil =>
      rw [pyReplace_nil _ _ ho₀]
      exact Subst.nil
    | @plain c t₀ u₀ hc h0 =>
      cases hlw : leadsWith o₀ (c :: u₀) with
      | false =>
        rw [pyReplace_nomatch c u₀ o₀ f₀ ho₀ hlw]
        refine Subst.plain c hc (ih t₀ u₀ ?_ h0)
        simp only [List.length_cons] at hlen
        omega
      | true =>
        have hsplitEq := leadsWith_eq_append o₀ (c :: u₀) hlw
        have hfull : Subst pairs (c :: t₀) (o₀ ++ (c :: u₀).drop o₀.length) := by
          rw [← hsplitEq]
          exact Subst.plain c hc h0
        have hxo : ∀ ch ∈ o₀, ∀ p ∈ pairs, ch ∉ p.2 := by
          intro ch hch p hp hinp2
          exact hdisj p hp ch hinp2 (o₀, f₀) hmem hch
        obtain ⟨t', ht', hs⟩ := Subst_split pairs hfk o₀ (c :: t₀) _ hxo hfull
        rw [pyReplace_match (c :: u₀) o₀ f₀ ho₀ hlw, ht']
        refine Subst.block o₀ f₀ hmem (ih t' _ ?_ hs)
        simp only [List.length_drop, List.length_cons]
        simp only [List.length_cons] at hlen
        omega
    | @block o f t₀ u₀ hp h0 =>
      have hxf : ∀ ch ∈ f, ch ∉ o₀ := fun ch hch => hdisj (o, f) hp ch hch (o₀, f₀) hmem
      rw [pyReplace_skip f u₀ o₀ f₀ ho₀ hxf]
      refine Subst.block o f hp (ih t₀ u₀ ?_ h0)
      have hfne : f ≠ [] := hfk (o, f) hp
      have hf1 : 1 ≤ f.length := by
        cases f with
        | nil => exact absurd rfl hfne
        | cons _ _ => simp
      simp only [List.length_append] at hlen
      omega

theorem Subst_reverse_step (pairs : List (List Char × List Char)) (o₀ f₀ : List Char)
    (hmem : (o₀, f₀) ∈ pairs)
    (_ho : ∀ p ∈ pairs, p.1 ≠ []) (hfk : ∀ p ∈ pairs, p.2 ≠ [])
    (hdisjO : ∀ p ∈ pairs, ∀ c ∈ p.2, ∀ q ∈ pairs, c ∉ q.1)
    (hdisjF : ∀ p ∈ pairs, ∀ q ∈ pairs, p ≠ q → ∀ c ∈ p.2, c ∉ q.2) :
    ∀ n t u, u.length ≤ n → Subst pairs t u →
      Subst (removeFirst pairs (o₀, f₀)) t (pyReplace u f₀ o₀) := by
  have hf₀ : f₀ ≠ [] := hfk (o₀, f₀) hmem
  intro n
  induction n with
  | zero =>
    intro t u hlen h
    have hu : u = [] := List.length_eq_zero.mp (Nat.le_zero.mp hlen)
    subst hu
    rw [pyReplace_nil _ _ hf₀]
    have ht : t = [] := Subst_target_nil pairs hfk h rfl
    subst ht
    exact Subst.nil
  | succ n ih =>
    intro t u hlen h
    cases h with
    | nil =>
      rw [pyReplace_nil _ _ hf₀]
      exact Subst.nil
    | @plain c t₀ u₀ hc h0 =>
      have hcf : c ∉ f₀ := hc (o₀, f₀) hmem
      have hlw : leadsWith f₀ (c :: u₀) = false := leadsWith_ne_of_head f₀ c u₀ hcf hf₀
      rw [pyReplace_nomatch c u₀ f₀ o₀ hf₀ hlw]
      refine Subst.plain c (fun p hp => hc p (removeFirst_subset _ _ p hp)) (ih t₀ u₀ ?_ h0)
      simp only [List.length_cons] at hlen
      omega
    | @block o f t₀ u₀ hp h0 =>
      by_cases hpq : (o, f) = (o₀, f₀)
      · have ho' : o = o₀ := congrArg Prod.fst hpq
        have hf' : f = f₀ := congrArg Prod.snd hpq
        subst ho'
        subst hf'
        rw [pyReplace_match_self u₀ f o hf₀]
        refine Subst_append_plain _ o t₀ _ ?_ (ih t₀ u₀ ?_ h0)
        · intro ch hch p hpe hin
          exact hdisjO p (removeFirst_subset _ _ p hpe) ch hin (o, f) hmem hch
        · have hf1 : 1 ≤ f.length := by
            cases f with
            | nil => exact absurd rfl hf₀
            | cons _ _ => simp
          simp only [List.length_append] at hlen
          omega
      · have hxf : ∀ ch ∈ f, ch ∉ f₀ := fun ch hch => hdisjF (o, f) hp (o₀, f₀) hmem hpq ch hch
        rw [pyReplace_skip f u₀ f₀ o₀ hf₀ hxf]
        refine Subst.block o f ((mem_removeFirst_of_ne _ _ _ hpq).mpr hp) (ih t₀ u₀ ?_ h0)
        have hfne : f ≠ [] := hfk (o, f) hp
        have hf1 : 1 ≤ f.length := by
          cases f with
          | nil => exact absurd rfl hfne
          | cons _ _ => simp
        simp only [List.length_append] at hlen
        omega

theorem Subst_applyFold (pairs : List (List Char × List Char))
    (ho : ∀ p ∈ pairs, p.1 ≠ []) (hfk : ∀ p ∈ pairs, p.2 ≠ [])
    (hdisj : ∀ p ∈ pairs, ∀ c ∈ p.2, ∀ q ∈ pairs, c ∉ q.1) :
    ∀ (L : List (List Char × List Char)) (t u : List Char), (∀ p ∈ L, p ∈ pairs) →
      Subst pairs t u → Subst pairs t (L.foldl (fun res p => pyReplace res p.1 p.2) u) := by
  intro L
  induction L with
  | nil =>
    intro t u _ h
    exact h
  | cons q L' ih =>
    intro t u hL h
    simp only [List.foldl_cons]
    refine ih t _ (fun p hp => hL p (List.mem_cons_of_mem _ hp)) ?_
    have hq : (q.1, q.2) ∈ pairs := by
      have := hL q (List.mem_cons_self _ _)
      simpa using this
    exact Subst_apply_step pairs q.1 q.2 hq ho hfk hdisj u.length t u (Nat.le_refl _) h

theorem mem_insertDescByLen (p q : List Char × List Char) (l : List (List Char × List Char)) :
    q ∈ insertDescByLen p l ↔ q = p ∨ q ∈ l := by
  induction l with
  | nil => simp [insertDescByLen]
  | cons r rest ih =>
    by_cases h : r.1.length < p.1.length
    · simp only [insertDescByLen, if_pos h, List.mem_cons]
    · simp only [insertDescByLen, if_neg h, List.mem_cons, ih]
      tauto

theorem mem_sortDescByLen (l : List (List Char × List Char)) (p : List Char × List Char) :
    p ∈ sortDescByLen l ↔ p ∈ l := by
  induction l with
  | nil => simp [sortDescByLen]
  | cons q rest ih =>
    rw [show sortDescByLen (q :: rest) = insertDescByLen q (sortDescByLen rest) from rfl,
      mem_insertDescByLen, ih]
    simp

theorem reverseFold_restore :
    ∀ (L pairs : List (List Char × List Char)) (t u : List Char) (n : Nat),
      L.Perm (pairs.map Prod.swap) →
      (∀ p ∈ pairs, p.1 ≠ []) → (∀ p ∈ pairs, p.2 ≠ []) →
      (∀ p ∈ pairs, ∀ c ∈ p.2, ∀ q ∈ pairs, c ∉ q.1) →
      (∀ p ∈ pairs, ∀ q ∈ pairs, p ≠ q → ∀ c ∈ p.2, c ∉ q.2) →
      Subst pairs t u →
      (L.foldl reverseStep (u, n)).1 = t := by
  intro L
  induction L with
  | nil =>
    intro pairs t u n hperm ho hfk hdO hdF hsub
    have hmap : pairs.map Prod.swap = [] := (hperm.symm).eq_nil
    have hpairs : pairs = [] := List.map_eq_nil_iff.mp hmap
    subst hpairs
    exact (Subst_nil_pairs t u hsub).symm
  | cons q L' ih =>
    intro pairs t u n hperm ho hfk hdO hdF hsub
    have hqmem : q ∈ pairs.map Prod.swap := hperm.subset (List.mem_cons_self _ _)
    obtain ⟨p, hp, hpq⟩ := List.mem_map.mp hqmem
    have hq1 : q.1 = p.2 := by rw [← hpq]; rfl
    have hq2 : q.2 = p.1 := by rw [← hpq]; rfl
    have hL' : L'.Perm ((removeFirst pairs p).map Prod.swap) := by
      have h2 : (q :: L').Perm (q :: removeFirst (pairs.map Prod.swap) q) :=
        hperm.trans (perm_cons_removeFirst q (pairs.map Prod.swap) hqmem)
      have h3 : L'.Perm (removeFirst (pairs.map Prod.swap) q) := h2.cons_inv
      rw [← hpq, ← map_removeFirst Prod.swap Prod.swap_injective] at h3
      exact h3
    simp only [List.foldl_cons]
    obtain ⟨m, hm⟩ : ∃ m, reverseStep (u, n) q = (pyReplace u q.1 q.2, m) := by
      by_cases hc : containsSub q.1 u = true
      · exact ⟨n + 1, by simp [reverseStep, hc]⟩
      · refine ⟨n, ?_⟩
        have hcf : containsSub q.1 u = false := by
          cases hcc : containsSub q.1 u with
          | true => exact absurd hcc hc
          | false => rfl
        simp [reverseStep, hcf, pyReplace_no_occurrence q.1 q.2 u hcf]
    rw [hm]
    have hmem2 : (p.1, p.2) ∈ pairs := by simpa using hp
    have hsub' : Subst (removeFirst pairs (p.1, p.2)) t (pyReplace u p.2 p.1) :=
      Subst_reverse_step pairs p.1 p.2 hmem2 ho hfk hdO hdF u.length t u (Nat.le_refl _) hsub
    rw [hq1, hq2]
    refine ih (removeFirst pairs p) t _ m hL' ?_ ?_ ?_ ?_ hsub'
    · exact fun r hr => ho r (removeFirst_subset _ _ r hr)
    · exact fun r hr => hfk r (removeFirst_subset _ _ r hr)
    · exact fun r hr c hc s hs =>
        hdO r (removeFirst_subset _ _ r hr) c hc s (removeFirst_subset _ _ s hs)
    · exact fun r hr s hs hne c hc =>
        hdF r (removeFirst_subset _ _ r hr) s (removeFirst_subset _ _ s hs) hne c hc

/-- Claim C1, counterexample: text `T = "ab"`, span set `S = {"a"}` (a
single value — trivially distinct and non-overlapping), store already
holding the mapping `"a" → "b"` (so the existing fake is returned and no
collision-fallback path runs).  `_replace_text` rewrites `"ab"` to `"bb"`;
`reverse_pdf`'s loop rewrites every `"b"` back to `"a"`, producing `"aa"`,
not the original `"ab"` — the fake value `"b"` also occurs in the original
text, so reversal overshoots. -/
theorem claim1_counterexample :
    (reverseReplace (replaceText [ 'a', 'b'] [([ 'a'], [ 'b'])]) [([ 'b'], [ 'a'])]).1 =
        [ 'a', 'a'] ∧
      ([ 'a', 'a'] : List Char) ≠ [ 'a', 'b'] := by decide

/-- Claim C1 (amended): the round-trip law
`reverse(apply(T, S, store).text, store).text = T` holds — for any text,
any set of replacement pairs (applied longest-value-first by
`_replace_text`) and the store's reverse index enumerated in any order —
provided additionally that the fake values are character-fresh: no
character of any fake occurs in `T`, in any original value, or in any other
fake, and all originals and fakes are non-empty.  Without the freshness
proviso the law fails (see the counterexample). -/
theorem claim1_roundtrip_amended (T : List Char) (pairs rev : List (List Char × List Char))
    (hperm : rev.Perm (pairs.map Prod.swap))
    (ho : ∀ p ∈ pairs, p.1 ≠ [])
    (hf : ∀ p ∈ pairs, p.2 ≠ [])
    (hfreshT : ∀ p ∈ pairs, ∀ c ∈ p.2, c ∉ T)
    (hdisjO : ∀ p ∈ pairs, ∀ c ∈ p.2, ∀ q ∈ pairs, c ∉ q.1)
    (hdisjF : ∀ p ∈ pairs, ∀ q ∈ pairs, p ≠ q → ∀ c ∈ p.2, c ∉ q.2) :
    (reverseReplace (replaceText T pairs) rev).1 = T := by
  have hsub0 : Subst pairs T T :=
    Subst_refl pairs T fun c hc p hp hcp => hfreshT p hp c hcp hc
  have happ : Subst pairs T (replaceText T pairs) :=
    Subst_applyFold pairs ho hf hdisjO (sortDescByLen pairs) T T
      (fun p hp => (mem_sortDescByLen pairs p).mp hp) hsub0
  exact reverseFold_restore rev pairs T (replaceText T pairs) 0 hperm ho hf hdisjO hdisjF happ

theorem claim1_roundtrip_amended_witness :
    (reverseReplace (replaceText [ 'h', 'i', ' ', 'h', 'i']
        [([ 'h', 'i'], [ 'Z'])]) [([ 'Z'], [ 'h', 'i'])]).1 =
      [ 'h', 'i', ' ', 'h', 'i'] :=
  claim1_roundtrip_amended [ 'h', 'i', ' ', 'h', 'i'] [([ 'h', 'i'], [ 'Z'])]
    [([ 'Z'], [ 'h', 'i'])] (by decide) (by decide) (by decide) (by decide) (by decide)
    (by decide)
